import Mathlib

/-!
# Verification of the tiny-link registry and click-ledger core

Shallow embedding of `src/main.py` of the tiny-link URL shortener.

The in-memory store `links` is a Python `dict[str, dict]`, i.e. an
insertion-ordered association of codes to link records; it is embedded
as a `List (String × LinkRecord)`.  Persistence (`save_links` /
`load_links`) goes through `json.dumps` / `json.loads`; the JSON layer
is embedded at the level of the JSON value tree (`Json`), since the
Python `json` module round-trips such trees exactly.  The click ledger
is a set of day-named `.jsonl` files, each a list of text lines; a line
is embedded by what `json.loads` does to it: blank (skipped by the
`line.strip()` guard), malformed (raises `JSONDecodeError`), or a
parsed click-event object.  Timestamps are kept as the ISO strings the
source stores; `datetime.fromisoformat` is an external parameter
`parse : String → Option Int` (`none` models a raised `ValueError`),
and the current time is an explicit argument.  `secrets.choice` is an
external stream of draws `rand : Nat → Nat`, and the unbounded retry
loop of `generate_code` is run on explicit fuel.
-/

namespace TinyLink

/-- One stored link record, the value of `links[code]` written by
`create_link` (`url`, `created_at`, `expires_at`, `clicks`). -/
structure LinkRecord where
  url : String
  created_at : String
  expires_at : Option String
  clicks : Int
deriving Repr, DecidableEq

/-- The in-memory store `links : dict[str, dict]`, insertion ordered. -/
abbrev Registry := List (String × LinkRecord)

/-- `links[code]` / `code in links` lookup: first entry with the key. -/
def lookupLink (links : Registry) (code : String) : Option LinkRecord :=
  match links with
  | [] => none
  | (c, r) :: rest => if c = code then some r else lookupLink rest code

/-- `code in links`. -/
def hasCode (links : Registry) (code : String) : Bool :=
  (lookupLink links code).isSome

/-- `links[code] = r`: replaces the entry in place if the key is
present, appends it otherwise (Python dict assignment). -/
def setLink (links : Registry) (code : String) (r : LinkRecord) : Registry :=
  match links with
  | [] => [(code, r)]
  | (c, r0) :: rest =>
    if c = code then (c, r) :: rest else (c, r0) :: setLink rest code r

/-- `del links[code]`: removes the entry with the key. -/
def delLink (links : Registry) (code : String) : Registry :=
  match links with
  | [] => []
  | (c, r0) :: rest => if c = code then rest else (c, r0) :: delLink rest code

/-! ## JSON values and registry persistence -/

/-- JSON value tree, as produced by `json.dumps` / consumed by
`json.loads`.  Arrays never occur in the persisted registry document,
so they are not needed here. -/
inductive Json where
  | null
  | str (s : String)
  | int (n : Int)
  | obj (fields : List (String × Json))

/-- Field access on a decoded JSON object (`data["url"]`, `.get`). -/
def getField (fields : List (String × Json)) (k : String) : Option Json :=
  match fields with
  | [] => none
  | (k0, v) :: rest => if k0 = k then some v else getField rest k

/-- JSON encoding of an optional string (`None` becomes `null`). -/
def encodeOptStr : Option String → Json
  | none => .null
  | some s => .str s

/-- JSON encoding of one link record, as written by `save_links`. -/
def encodeRecord (r : LinkRecord) : Json :=
  .obj [("url", .str r.url), ("created_at", .str r.created_at),
        ("expires_at", encodeOptStr r.expires_at), ("clicks", .int r.clicks)]

/-- `save_links`: serializes the whole registry as one JSON object,
top-level mapping code to record object (`json.dumps(links)`). -/
def save_links (links : Registry) : Json :=
  .obj (links.map (fun p => (p.1, encodeRecord p.2)))

/-- `load_links`: `json.loads` of the file content.  The source assigns
the decoded document to `links` without validation, so the result is
the raw field list of the top-level object; a non-object document has
no field list. -/
def load_links (doc : Json) : Option (List (String × Json)) :=
  match doc with
  | .obj fields => some fields
  | _ => none

/-- How the rest of the source reads a loaded record back:
`data["url"]`, `data["created_at"]`, `data.get("expires_at")`,
`data.get("clicks", 0)`. -/
def viewRecord (v : Json) : Option LinkRecord :=
  match v with
  | .obj fs =>
    match getField fs "url", getField fs "created_at" with
    | some (.str u), some (.str c) =>
      let e : Option String :=
        match getField fs "expires_at" with
        | some (.str s) => some s
        | _ => none
      let k : Int :=
        match getField fs "clicks" with
        | some (.int n) => n
        | _ => 0
      some ⟨u, c, e, k⟩
    | _, _ => none
  | _ => none

/-! ## Click ledger -/

/-- One logged click, the JSON object written by `log_click`. -/
structure ClickEvent where
  code : String
  time : String
  ip : Option String
  user_agent : String
  referer : String
deriving Repr, DecidableEq

/-- One text line of a day-partition `.jsonl` file, embedded by what the
reading loop of `get_click_stats` does with it: `blank` is a line whose
`strip()` is empty (the loop skips it), `malformed` is a non-blank line
on which `json.loads` raises `JSONDecodeError` (`raw` is the text),
`evt` is a line that parses to a click-event object. -/
inductive LogLine where
  | blank
  | malformed (raw : String)
  | evt (e : ClickEvent)
deriving Repr, DecidableEq

/-- The `clicks/` directory: day-partition files, `(filename, lines)`.
A missing directory is the empty list. -/
abbrev ClickLog := List (String × List LogLine)

/-- Lexicographic comparison of character lists by code point, the
order Python uses to compare the day-file name strings. -/
def charListLt : List Char → List Char → Bool
  | _, [] => false
  | [], _ :: _ => true
  | a :: as, b :: bs =>
    if a.toNat < b.toNat then true
    else if b.toNat < a.toNat then false
    else charListLt as bs

/-- Python string `<` on filenames (lexicographic by code point). -/
def strLt (a b : String) : Bool :=
  charListLt a.toList b.toList

/-- Insertion step of `sorted(..., reverse=True)` on filenames. -/
def insertDesc (x : String × List LogLine) : ClickLog → ClickLog
  | [] => [x]
  | y :: ys => if strLt x.1 y.1 then y :: insertDesc x ys else x :: y :: ys

/-- `sorted(clicks_dir.glob("*.jsonl"), reverse=True)`: the day files in
descending filename order (descending date, as names are ISO dates). -/
def sortDesc : ClickLog → ClickLog
  | [] => []
  | x :: xs => insertDesc x (sortDesc xs)

/-- The exception a malformed line makes `json.loads` raise. -/
inductive ScanError where
  | jsonDecodeError
deriving Repr, DecidableEq

instance {ε α : Type} [DecidableEq ε] [DecidableEq α] :
    DecidableEq (Except ε α) := fun a b =>
  match a, b with
  | .error x, .error y =>
    if h : x = y then .isTrue (by rw [h])
    else .isFalse (by intro hc; cases hc; exact h rfl)
  | .ok x, .ok y =>
    if h : x = y then .isTrue (by rw [h])
    else .isFalse (by intro hc; cases hc; exact h rfl)
  | .error _, .ok _ => .isFalse (by intro hc; cases hc)
  | .ok _, .error _ => .isFalse (by intro hc; cases hc)

/-- The value `get_click_stats` returns: running total and the first at
most 10 matching events met by the scan. -/
structure ClickStats where
  total : Nat
  recent : List ClickEvent
deriving Repr, DecidableEq

/-- The inner line loop of `get_click_stats` over one file, threading
the `total` and `recent` accumulators.  A blank line is skipped, a
malformed line raises, a parsed event counts when its `code` matches
and is appended to `recent` while `len(recent) < 10`. -/
def scanLines (code : String) (lines : List LogLine) (total : Nat)
    (recent : List ClickEvent) : Except ScanError (Nat × List ClickEvent) :=
  match lines with
  | [] => .ok (total, recent)
  | .blank :: rest => scanLines code rest total recent
  | .malformed _ :: _ => .error .jsonDecodeError
  | .evt e :: rest =>
    if e.code = code then
      scanLines code rest (total + 1)
        (if recent.length < 10 then recent ++ [e] else recent)
    else
      scanLines code rest total recent

/-- The outer file loop of `get_click_stats`. -/
def scanFiles (code : String) (files : ClickLog) (total : Nat)
    (recent : List ClickEvent) : Except ScanError (Nat × List ClickEvent) :=
  match files with
  | [] => .ok (total, recent)
  | f :: rest =>
    match scanLines code f.2 total recent with
    | .error e => .error e
    | .ok (t, r) => scanFiles code rest t r

/-- `get_click_stats(code)`: scans the day files in descending filename
order and accumulates total and recent.  Raising `JSONDecodeError` is
the `.error` result. -/
def get_click_stats (log : ClickLog) (code : String) :
    Except ScanError ClickStats :=
  match scanFiles code (sortDesc log) 0 [] with
  | .error e => .error e
  | .ok (t, r) => .ok ⟨t, r⟩

/-- The events of a line list whose `code` field matches. -/
def matchingEvents (lines : List LogLine) (code : String) : List ClickEvent :=
  lines.filterMap (fun l =>
    match l with
    | .evt e => if e.code = code then some e else none
    | _ => none)

/-- All matching events across all day files, in the stored order. -/
def allMatches (log : ClickLog) (code : String) : List ClickEvent :=
  (log.map (fun f => matchingEvents f.2 code)).flatten

/-- All matching events in the order the descending scan meets them. -/
def scanMatches (log : ClickLog) (code : String) : List ClickEvent :=
  ((sortDesc log).map (fun f => matchingEvents f.2 code)).flatten

/-- A line the scan can pass without raising. -/
def lineOK : LogLine → Bool
  | .malformed _ => false
  | _ => true

/-- A click-log state with no malformed line anywhere. -/
def logWF (log : ClickLog) : Bool :=
  log.all (fun f => f.2.all lineOK)

/-! ## Operations -/

/-- Truncation `[:200]` of the user-agent header. -/
def truncate200 (s : String) : String :=
  String.mk (s.toList.take 200)

/-- Appending one line to the day file named `day`, creating the file
if absent (`open(log_file, "a")`). -/
def appendLine (log : ClickLog) (day : String) (line : LogLine) : ClickLog :=
  match log with
  | [] => [(day, [line])]
  | f :: rest =>
    if f.1 = day then (f.1, f.2 ++ [line]) :: rest
    else f :: appendLine rest day line

/-- `log_click`: serializes one click event and appends it as a line to
today's day file.  `day` is `date.today().isoformat()`, `time` is
`datetime.utcnow().isoformat()`, `ip` is `request.client.host` (absent
when there is no client), `ua` and `referer` the request headers. -/
def log_click (log : ClickLog) (code day time : String) (ip : Option String)
    (ua referer : String) : ClickLog :=
  appendLine log day (.evt ⟨code, time, ip, truncate200 ua, referer⟩)

/-- The whole persistent state the core manipulates: the in-memory
`links` dict, the persisted `links.json` document, and the `clicks/`
directory. -/
structure SysState where
  links : Registry
  disk : Json
  log : ClickLog

/-- Python truthiness of an optional string (`if data.code:`,
`if data.get("expires_at"):`): `None` and the empty string are falsy. -/
def truthyOpt : Option String → Option String
  | none => none
  | some s => if s = "" then none else some s

/-- Python `str.isalnum` on ASCII strings: non-empty and every
character a letter or digit (Unicode categories are out of scope). -/
def pyIsAlnum (s : String) : Bool :=
  !s.toList.isEmpty && s.toList.all fun c => c.isAlpha || c.isDigit

/-- `string.ascii_letters + string.digits`, the 62-character alphabet
of `generate_code`. -/
def alphabet : List Char :=
  "abcdefghijklmnopqrstuvwxyzABCDEFGHIJKLMNOPQRSTUVWXYZ0123456789".toList

/-- One `secrets.choice(alphabet)` draw: the `k`-th value of the
external random stream, reduced to an index into the alphabet. -/
def drawChar (rand : Nat → Nat) (k : Nat) : Char :=
  alphabet.getD (rand k % 62) 'a'

/-- The candidate built by the `i`-th iteration of the retry loop of
`generate_code`: `len` fresh draws joined into a string. -/
def candidate (rand : Nat → Nat) (len i : Nat) : String :=
  String.mk ((List.range len).map fun j => drawChar rand (i * len + j))

/-- The `while True` retry loop of `generate_code`, run on explicit
fuel: draw a candidate and return it unless it is already a key.
`none` means the loop was still running when the fuel ran out. -/
def genLoop (links : Registry) (rand : Nat → Nat) (len : Nat) :
    Nat → Nat → Option String
  | 0, _ => none
  | fuel + 1, i =>
    let c := candidate rand len i
    if hasCode links c then genLoop links rand len fuel (i + 1) else some c

/-- `generate_code(length)` (the source default is length 6). -/
def generate_code (fuel : Nat) (links : Registry) (rand : Nat → Nat)
    (len : Nat) : Option String :=
  genLoop links rand len fuel 0

/-- A create request after the HTTP layer: `scheme` is
`urlparse(str(data.url)).scheme`, `url` is `str(data.url)`, `code` and
`expires_at` the optional body fields. -/
structure CreateReq where
  scheme : String
  url : String
  code : Option String
  expires_at : Option String

/-- Outcome of `create_link` (the HTTP layer maps `invalidURL` and
`invalidCode` to 400 and `conflict` to 409). -/
inductive CreateOutcome where
  | invalidURL
  | conflict
  | invalidCode
  | created (code : String)
deriving Repr, DecidableEq

/-- `create_link`: validates the URL scheme, then either takes the
supplied custom code (conflict check before the alphanumeric check;
Python truthiness, so an empty string takes the generation path) or
generates a fresh code, stores the record with `clicks = 0` and the
unvalidated `expires_at` string, and persists.  The state is returned
unchanged on every failure; outcome `none` models the generation loop
still running (it never reaches the mutation). -/
def create_link (st : SysState) (req : CreateReq) (now : String)
    (fuel : Nat) (rand : Nat → Nat) : SysState × Option CreateOutcome :=
  if ¬(req.scheme = "http" ∨ req.scheme = "https") then
    (st, some .invalidURL)
  else
    match truthyOpt req.code with
    | some c =>
      if hasCode st.links c then (st, some .conflict)
      else if ¬ pyIsAlnum c then (st, some .invalidCode)
      else
        let links' := setLink st.links c ⟨req.url, now, req.expires_at, 0⟩
        (⟨links', save_links links', st.log⟩, some (.created c))
    | none =>
      match generate_code fuel st.links rand 6 with
      | none => (st, none)
      | some c =>
        let links' := setLink st.links c ⟨req.url, now, req.expires_at, 0⟩
        (⟨links', save_links links', st.log⟩, some (.created c))

/-- Outcome of `get_link` (`GET /api/links/<code>`). -/
inductive GetOutcome where
  | notFound
  | found (code url created_at : String) (clicks : Int)
deriving Repr, DecidableEq

/-- `get_link`: read-only lookup; mutates nothing. -/
def get_link (st : SysState) (code : String) : GetOutcome :=
  match lookupLink st.links code with
  | none => .notFound
  | some data => .found code data.url data.created_at data.clicks

/-- One entry of the `list_links` response. -/
structure ListEntry where
  code : String
  url : String
  created_at : String
  clicks : Int
deriving Repr, DecidableEq

/-- `list_links`: the first `limit` records in insertion order, plus
the registry size; mutates nothing. -/
def list_links (st : SysState) (limit : Nat) : List ListEntry × Nat :=
  ((st.links.take limit).map fun p => ⟨p.1, p.2.url, p.2.created_at, p.2.clicks⟩,
    st.links.length)

/-- Outcome of `get_link_stats` (`GET /api/links/<code>/stats`):
`notFound` is the 404 raised when the code has no record, `scanFailed`
the unhandled `JSONDecodeError` propagating out of `get_click_stats`. -/
inductive StatsOutcome where
  | notFound
  | scanFailed (e : ScanError)
  | ok (url created_at : String) (total : Nat) (recent : List ClickEvent)
deriving Repr, DecidableEq

/-- `get_link_stats`: requires the record to exist, then aggregates the
click log; mutates nothing. -/
def get_link_stats (st : SysState) (code : String) : StatsOutcome :=
  match lookupLink st.links code with
  | none => .notFound
  | some data =>
    match get_click_stats st.log code with
    | .error e => .scanFailed e
    | .ok stats => .ok data.url data.created_at stats.total stats.recent

/-- Outcome of `delete_link`. -/
inductive DeleteOutcome where
  | notFound
  | deleted
deriving Repr, DecidableEq

/-- `delete_link`: removes the record and persists; the 404 leaves the
state unchanged. -/
def delete_link (st : SysState) (code : String) : SysState × DeleteOutcome :=
  match lookupLink st.links code with
  | none => (st, .notFound)
  | some _ =>
    let links' := delLink st.links code
    (⟨links', save_links links', st.log⟩, .deleted)

/-- Outcome of `redirect`: the 404, the 410, the unhandled `ValueError`
raised by `datetime.fromisoformat` on an unparseable `expires_at`, or
the 302 with the destination URL. -/
inductive RedirectOutcome where
  | notFound
  | expired
  | isoParseError
  | redirected (url : String)
deriving Repr, DecidableEq

/-- `redirect`: lookup, truthiness-guarded expiry check
(`datetime.fromisoformat(data["expires_at"]) < datetime.utcnow()`),
then increment `clicks`, persist the registry, and append the click
event to the ledger.  `parse` stands for `datetime.fromisoformat`
(`none` = raises `ValueError`) and `now` for `datetime.utcnow()`;
`day`, `time`, `ip`, `ua`, `referer` are the logging inputs of
`log_click`.  Failures return the state unchanged: in the source every
`raise` precedes the first mutation. -/
def redirect (st : SysState) (code : String) (parse : String → Option Int)
    (now : Int) (day time : String) (ip : Option String) (ua referer : String) :
    SysState × RedirectOutcome :=
  match lookupLink st.links code with
  | none => (st, .notFound)
  | some data =>
    let proceed : SysState × RedirectOutcome :=
      let links' := setLink st.links code { data with clicks := data.clicks + 1 }
      (⟨links', save_links links', log_click st.log code day time ip ua referer⟩,
        .redirected data.url)
    match truthyOpt data.expires_at with
    | none => proceed
    | some s =>
      match parse s with
      | none => (st, .isoParseError)
      | some t => if t < now then (st, .expired) else proceed

/-- One mutating operation of the core, with all its external inputs
(the read-only operations `get_link`, `list_links`, `get_link_stats`
and `get_click_stats` take no state apart and return none). -/
inductive Op where
  | createOp (req : CreateReq) (now : String) (fuel : Nat) (rand : Nat → Nat)
  | deleteOp (code : String)
  | redirectOp (code : String) (parse : String → Option Int) (now : Int)
      (day time : String) (ip : Option String) (ua referer : String)

/-- The state after running one operation. -/
def applyOp (st : SysState) : Op → SysState
  | .createOp req now fuel rand => (create_link st req now fuel rand).1
  | .deleteOp code => (delete_link st code).1
  | .redirectOp code parse now day time ip ua referer =>
    (redirect st code parse now day time ip ua referer).1

/-- The code whose click was counted by the operation: `some c` exactly
when the operation is a redirect of `c` that reached the increment. -/
def redirectedCode (st : SysState) : Op → Option String
  | .redirectOp code parse now day time ip ua referer =>
    match (redirect st code parse now day time ip ua referer).2 with
    | .redirected _ => some code
    | _ => none
  | _ => none

/-- Every stored click counter is non-negative. -/
def clicksNonneg (links : Registry) : Prop :=
  ∀ p ∈ links, 0 ≤ p.2.clicks

/-- The registry keys are distinct (always true of a Python dict). -/
def keysNodup (links : Registry) : Prop :=
  (links.map Prod.fst).Nodup

/-- The empty state: no links, the persisted empty document, no click
files. -/
def emptyState : SysState :=
  ⟨[], save_links [], []⟩

/-- The create request of the unvalidated-`expires_at` scenario. -/
def expDemoReq : CreateReq :=
  ⟨"https", "https://example.com/a", some "promo", some "not-a-date"⟩

/-- The state after inserting the unvalidated-`expires_at` link. -/
def expDemoState : SysState :=
  (create_link emptyState expDemoReq "2024-01-01T00:00:00" 0 fun _ => 0).1

/-! ## Theorems -/

theorem viewRecord_encodeRecord (r : LinkRecord) :
    viewRecord (encodeRecord r) = some r := by
  cases r with
  | mk u c e k =>
    cases e <;> simp [viewRecord, encodeRecord, getField, encodeOptStr]

/-- **C6.** Persisting the registry and reloading it yields an identical
mapping: the same codes in the same order, each record reading back with
the same `url`, `created_at`, `expires_at` and `clicks` values. -/
theorem save_load_roundtrip (links : Registry) :
    (load_links (save_links links)).map
        (fun fs => fs.map (fun q => (q.1, viewRecord q.2)))
      = some (links.map (fun p => (p.1, some p.2))) := by
  simp only [save_links, load_links, Option.map_some, List.map_map]
  induction links with
  | nil => rfl
  | cons p rest ih =>
    simp only [List.map_cons, ih, Function.comp]
    simp [viewRecord_encodeRecord]

theorem matchingEvents_nil (code : String) : matchingEvents [] code = [] := rfl

theorem matchingEvents_blank (code : String) (rest : List LogLine) :
    matchingEvents (.blank :: rest) code = matchingEvents rest code := rfl

theorem matchingEvents_evt (code : String) (e : ClickEvent) (rest : List LogLine) :
    matchingEvents (.evt e :: rest) code =
      if e.code = code then e :: matchingEvents rest code
      else matchingEvents rest code := by
  by_cases h : e.code = code <;> simp [matchingEvents, List.filterMap_cons, h]

theorem scanLines_wf (code : String) (lines : List LogLine)
    (h : lines.all lineOK = true) (total : Nat) (recent : List ClickEvent) :
    scanLines code lines total recent =
      .ok (total + (matchingEvents lines code).length,
        recent ++ (matchingEvents lines code).take (10 - recent.length)) := by
  induction lines generalizing total recent with
  | nil => simp [scanLines, matchingEvents_nil]
  | cons l rest ih =>
    simp only [List.all_cons, Bool.and_eq_true] at h
    cases l with
    | blank =>
      rw [scanLines, matchingEvents_blank, ih h.2]
    | malformed raw =>
      simp [lineOK] at h
    | evt e =>
      rw [scanLines, matchingEvents_evt]
      by_cases hc : e.code = code
      · simp only [hc, if_true, ih h.2]
        by_cases hlen : recent.length < 10
        · simp only [hlen, if_true]
          have h10 : 10 - recent.length = (10 - (recent.length + 1)) + 1 := by omega
          simp only [List.length_append, List.length_cons, List.length_nil,
            Nat.zero_add, h10, List.take_succ_cons, List.append_assoc,
            List.cons_append, List.nil_append]
          have harith : total + 1 + (matchingEvents rest code).length
              = total + ((matchingEvents rest code).length + 1) := by omega
          rw [harith]
        · simp only [hlen, if_false]
          have h10 : 10 - recent.length = 0 := by omega
          simp only [h10, List.take_zero, List.append_nil, List.length_cons]
          have harith : total + 1 + (matchingEvents rest code).length
              = total + ((matchingEvents rest code).length + 1) := by omega
          rw [harith]
      · simp only [hc, if_false, ih h.2]

theorem scanFiles_wf (code : String) (files : ClickLog)
    (h : files.all (fun f => f.2.all lineOK) = true)
    (total : Nat) (recent : List ClickEvent) :
    scanFiles code files total recent =
      .ok (total + ((files.map (fun f => matchingEvents f.2 code)).flatten).length,
        recent ++ ((files.map (fun f => matchingEvents f.2 code)).flatten).take
          (10 - recent.length)) := by
  induction files generalizing total recent with
  | nil => simp [scanFiles]
  | cons f rest ih =>
    simp only [List.all_cons, Bool.and_eq_true] at h
    rw [scanFiles, scanLines_wf code f.2 h.1]
    show scanFiles code rest (total + (matchingEvents f.2 code).length)
        (recent ++ (matchingEvents f.2 code).take (10 - recent.length)) = _
    rw [ih h.2]
    simp only [List.map_cons, List.flatten_cons, Except.ok.injEq, Prod.mk.injEq]
    refine ⟨by simp [List.length_append]; omega, ?_⟩
    rw [List.take_append_eq_append_take, ← List.append_assoc]
    have hlen : 10 - (recent ++ (matchingEvents f.2 code).take (10 - recent.length)).length
        = (10 - recent.length) - (matchingEvents f.2 code).length := by
      simp [List.length_append, List.length_take]
      omega
    rw [hlen]

theorem insertDesc_perm (x : String × List LogLine) (l : ClickLog) :
    List.Perm (insertDesc x l) (x :: l) := by
  induction l with
  | nil => exact List.Perm.refl _
  | cons y ys ih =>
    rw [insertDesc]
    split
    · exact (ih.cons y).trans (List.Perm.swap x y ys)
    · exact List.Perm.refl _

theorem sortDesc_perm (l : ClickLog) : List.Perm (sortDesc l) l := by
  induction l with
  | nil => exact List.Perm.refl _
  | cons x xs ih => exact (insertDesc_perm x (sortDesc xs)).trans (ih.cons x)

theorem logWF_sortDesc (log : ClickLog) (h : logWF log = true) :
    (sortDesc log).all (fun f => f.2.all lineOK) = true := by
  rw [List.all_eq_true]
  intro f hf
  rw [logWF, List.all_eq_true] at h
  exact h f ((sortDesc_perm log).mem_iff.mp hf)

theorem charListLt_asymm (as : List Char) :
    ∀ bs, charListLt as bs = true → charListLt bs as = false := by
  induction as with
  | nil =>
    intro bs h
    cases bs with
    | nil => cases h
    | cons b bs => rfl
  | cons a as ih =>
    intro bs h
    cases bs with
    | nil => cases h
    | cons b bs =>
      rw [charListLt] at h ⊢
      by_cases h1 : a.toNat < b.toNat
      · have h2 : ¬ b.toNat < a.toNat := by omega
        rw [if_neg h2, if_pos h1]
      · by_cases h2 : b.toNat < a.toNat
        · rw [if_neg h1, if_pos h2] at h
          cases h
        · rw [if_neg h1, if_neg h2] at h
          rw [if_neg h2, if_neg h1]
          exact ih bs h

theorem charListLt_false_trans (as : List Char) :
    ∀ bs cs, charListLt as bs = false → charListLt bs cs = false →
      charListLt as cs = false := by
  induction as with
  | nil =>
    intro bs cs h1 h2
    cases bs with
    | nil =>
      cases cs with
      | nil => rfl
      | cons c cs => cases h2
    | cons b bs => cases h1
  | cons a as ih =>
    intro bs cs h1 h2
    cases cs with
    | nil => rfl
    | cons c cs =>
      cases bs with
      | nil => cases h2
      | cons b bs =>
        rw [charListLt] at h1 h2 ⊢
        by_cases hab : a.toNat < b.toNat
        · rw [if_pos hab] at h1
          cases h1
        · by_cases hbc : b.toNat < c.toNat
          · rw [if_pos hbc] at h2
            cases h2
          · by_cases hba : b.toNat < a.toNat
            · have hca : c.toNat < a.toNat := by omega
              have hac : ¬ a.toNat < c.toNat := by omega
              rw [if_neg hac, if_pos hca]
            · by_cases hcb : c.toNat < b.toNat
              · have hca : c.toNat < a.toNat := by omega
                have hac : ¬ a.toNat < c.toNat := by omega
                rw [if_neg hac, if_pos hca]
              · rw [if_neg hab, if_neg hba] at h1
                rw [if_neg hbc, if_neg hcb] at h2
                have hac : ¬ a.toNat < c.toNat := by omega
                have hca : ¬ c.toNat < a.toNat := by omega
                rw [if_neg hac, if_neg hca]
                exact ih bs cs h1 h2

theorem strLt_asymm (a b : String) (h : strLt a b = true) :
    strLt b a = false :=
  charListLt_asymm a.toList b.toList h

theorem strLt_false_trans (a b c : String) (h1 : strLt a b = false)
    (h2 : strLt b c = false) : strLt a c = false :=
  charListLt_false_trans a.toList b.toList c.toList h1 h2

theorem pairwise_insertDesc (x : String × List LogLine) (l : ClickLog)
    (h : l.Pairwise (fun a b => strLt a.1 b.1 = false)) :
    (insertDesc x l).Pairwise fun a b => strLt a.1 b.1 = false := by
  induction l with
  | nil => simp [insertDesc]
  | cons y ys ih =>
    rw [insertDesc]
    rcases List.pairwise_cons.mp h with ⟨hy, hys⟩
    split
    · rename_i hlt
      refine List.pairwise_cons.mpr ⟨fun a ha => ?_, ih hys⟩
      rcases List.mem_cons.mp ((insertDesc_perm x ys).mem_iff.mp ha) with rfl | ha
      · exact strLt_asymm _ _ hlt
      · exact hy a ha
    · rename_i hnlt
      rw [Bool.not_eq_true] at hnlt
      refine List.pairwise_cons.mpr ⟨fun a ha => ?_, h⟩
      rcases List.mem_cons.mp ha with rfl | ha
      · exact hnlt
      · exact strLt_false_trans _ _ _ hnlt (hy a ha)

theorem pairwise_sortDesc (l : ClickLog) :
    (sortDesc l).Pairwise fun a b => strLt a.1 b.1 = false := by
  induction l with
  | nil => simp [sortDesc]
  | cons x xs ih => exact pairwise_insertDesc x (sortDesc xs) ih

/-- **C8 (amended).** On every click-log state with no malformed
(non-blank unparseable) line — the restriction the counterexample
forces, since on other states `get_click_stats` raises instead of
returning — `aggregate` returns normally with `total` the number of
events across all day files whose `code` field matches, and `recent`
the first at most 10 matching events met when the day files are
scanned in descending filename (= date) order; the scanned file list
is indeed sorted descending — no file is followed by one with a
lexicographically greater (hence later-date) name — so later days
contribute to `recent` before earlier days. -/
theorem get_click_stats_wf (log : ClickLog) (code : String)
    (h : logWF log = true) :
    get_click_stats log code
      = .ok ⟨(allMatches log code).length, (scanMatches log code).take 10⟩ := by
  rw [get_click_stats, scanFiles_wf code _ (logWF_sortDesc log h) 0 []]
  have hlen : (allMatches log code).length = (scanMatches log code).length := by
    rw [allMatches, scanMatches, List.length_flatten, List.length_flatten]
    exact (((sortDesc_perm log).map _).map _).sum_eq.symm
  simp [scanMatches, hlen]

theorem c8_aggregate_spec (log : ClickLog) (code : String)
    (h : logWF log = true) :
    get_click_stats log code
        = .ok ⟨(allMatches log code).length, (scanMatches log code).take 10⟩
      ∧ (sortDesc log).Pairwise fun a b => strLt a.1 b.1 = false :=
  ⟨get_click_stats_wf log code h, pairwise_sortDesc log⟩

/-- **C8 (amended, witness).** Three events for `"x"` on day `D1` and
two on the later day `D2`: total is 5 and `recent` begins with `D2`'s
events. -/
theorem c8_aggregate_spec_witness :
    get_click_stats
        [("2024-01-01", [LogLine.evt ⟨"x", "t1", none, "u", ""⟩, .evt ⟨"x", "t2", none, "u", ""⟩,
          .evt ⟨"x", "t3", none, "u", ""⟩]),
         ("2024-01-02", [LogLine.evt ⟨"x", "t4", none, "u", ""⟩, .evt ⟨"x", "t5", none, "u", ""⟩])]
        "x"
      = .ok ⟨5, [⟨"x", "t4", none, "u", ""⟩, ⟨"x", "t5", none, "u", ""⟩, ⟨"x", "t1", none, "u", ""⟩,
          ⟨"x", "t2", none, "u", ""⟩, ⟨"x", "t3", none, "u", ""⟩]⟩ := by
  rw [(c8_aggregate_spec _ "x" (by decide)).1]
  decide

/-- **C8 (counterexample).** The claim quantifies over every click-log
state, but on a state whose day file holds one matching event followed
by a malformed line, `aggregate` does not return the matching-event
count at all: `json.loads` raises and `get_click_stats` produces an
error, although exactly one event of that state matches. -/
theorem c8_counterexample :
    get_click_stats
        [("2024-01-03", [LogLine.evt ⟨"x", "t9", none, "u", ""⟩,
          LogLine.malformed "truncated"])] "x"
      = .error .jsonDecodeError
    ∧ (allMatches
        [("2024-01-03", [LogLine.evt ⟨"x", "t9", none, "u", ""⟩,
          LogLine.malformed "truncated"])] "x").length = 1 := by
  exact ⟨rfl, by decide⟩

theorem scanLines_error_iff (code : String) (lines : List LogLine)
    (total : Nat) (recent : List ClickEvent) :
    (∃ e, scanLines code lines total recent = .error e) ↔
      ∃ raw, LogLine.malformed raw ∈ lines := by
  induction lines generalizing total recent with
  | nil => simp [scanLines]
  | cons l rest ih =>
    cases l with
    | blank =>
      rw [scanLines, ih]
      simp
    | malformed raw =>
      constructor
      · intro _
        exact ⟨raw, List.mem_cons_self _ _⟩
      · intro _
        exact ⟨.jsonDecodeError, rfl⟩
    | evt e =>
      rw [scanLines]
      split <;> rw [ih] <;> simp

theorem scanFiles_error_iff (code : String) (files : ClickLog)
    (total : Nat) (recent : List ClickEvent) :
    (∃ e, scanFiles code files total recent = .error e) ↔
      ∃ f ∈ files, ∃ raw, LogLine.malformed raw ∈ f.2 := by
  induction files generalizing total recent with
  | nil => simp [scanFiles]
  | cons f rest ih =>
    rw [scanFiles]
    cases hs : scanLines code f.2 total recent with
    | error e =>
      constructor
      · intro _
        exact ⟨f, List.mem_cons_self _ _,
          (scanLines_error_iff code f.2 total recent).mp ⟨e, hs⟩⟩
      · intro _; exact ⟨e, rfl⟩
    | ok tr =>
      obtain ⟨t, r⟩ := tr
      rw [ih]
      have hf : ¬ ∃ raw, LogLine.malformed raw ∈ f.2 := by
        intro hraw
        obtain ⟨e, he⟩ := (scanLines_error_iff code f.2 total recent).mpr hraw
        rw [hs] at he
        cases he
      constructor
      · rintro ⟨g, hg, hraw⟩
        exact ⟨g, List.mem_cons_of_mem f hg, hraw⟩
      · rintro ⟨g, hg, hraw⟩
        rcases List.mem_cons.mp hg with rfl | hg
        · exact absurd hraw hf
        · exact ⟨g, hg, hraw⟩

theorem get_click_stats_error_iff (log : ClickLog) (code : String) :
    (∃ e, get_click_stats log code = .error e) ↔
      ∃ e, scanFiles code (sortDesc log) 0 [] = .error e := by
  rw [get_click_stats]
  cases hs : scanFiles code (sortDesc log) 0 [] with
  | error e => simp
  | ok tr =>
    obtain ⟨t, r⟩ := tr
    simp

theorem scanLines_skip_blank (code : String) (ls₁ ls₂ : List LogLine)
    (total : Nat) (recent : List ClickEvent) :
    scanLines code (ls₁ ++ LogLine.blank :: ls₂) total recent
      = scanLines code (ls₁ ++ ls₂) total recent := by
  induction ls₁ generalizing total recent with
  | nil => rw [List.nil_append, List.nil_append, scanLines]
  | cons l rest ih =>
    cases l with
    | blank => rw [List.cons_append, List.cons_append, scanLines, scanLines, ih]
    | malformed raw => rfl
    | evt e =>
      rw [List.cons_append, List.cons_append, scanLines, scanLines]
      split <;> rw [ih]

/-- **C1 (amended).** `get_click_stats` skips only blank
(whitespace-only) lines; it raises `json.JSONDecodeError` — returning
no total and no recent — exactly when some scanned day file contains a
non-blank line that is not parseable as JSON.  Blank lines are indeed
skipped without affecting the result. -/
theorem c1_amended_malformed_raises (log : ClickLog) (code : String) :
    ((∃ e, get_click_stats log code = .error e) ↔
        ∃ f ∈ log, ∃ raw, LogLine.malformed raw ∈ f.2)
      ∧ ∀ day ls₁ ls₂,
          get_click_stats [(day, ls₁ ++ LogLine.blank :: ls₂)] code
            = get_click_stats [(day, ls₁ ++ ls₂)] code := by
  constructor
  · rw [get_click_stats_error_iff, scanFiles_error_iff]
    constructor
    · rintro ⟨f, hf, hraw⟩
      exact ⟨f, (sortDesc_perm log).mem_iff.mp hf, hraw⟩
    · rintro ⟨f, hf, hraw⟩
      exact ⟨f, (sortDesc_perm log).mem_iff.mpr hf, hraw⟩
  · intro day ls₁ ls₂
    simp only [get_click_stats, sortDesc, insertDesc, scanFiles,
      scanLines_skip_blank]

/-- **C1 (counterexample).** A click-log state whose single day file
holds one non-blank line that is not parseable as JSON: `aggregate`
does not return normally — `json.loads` raises and `get_click_stats`
produces no total and no recent. -/
theorem c1_counterexample :
    get_click_stats [("2024-01-02", [LogLine.malformed "not json"])] "x"
      = .error .jsonDecodeError := by
  rfl

theorem lookupLink_setLink_self (links : Registry) (code : String)
    (r : LinkRecord) : lookupLink (setLink links code r) code = some r := by
  induction links with
  | nil => simp [setLink, lookupLink]
  | cons p rest ih =>
    obtain ⟨c, r0⟩ := p
    rw [setLink]
    by_cases hc : c = code
    · rw [if_pos hc, lookupLink, if_pos hc]
    · rw [if_neg hc, lookupLink, if_neg hc]
      exact ih

theorem lookupLink_setLink_ne (links : Registry) (code c' : String)
    (r : LinkRecord) (h : c' ≠ code) :
    lookupLink (setLink links code r) c' = lookupLink links c' := by
  induction links with
  | nil =>
    have hcc : ¬ code = c' := fun hh => h hh.symm
    simp [setLink, lookupLink, hcc]
  | cons p rest ih =>
    obtain ⟨c, r0⟩ := p
    by_cases hc : c = code
    · subst hc
      have hcc : ¬ c = c' := fun hh => h hh.symm
      simp [setLink, lookupLink, hcc]
    · simp only [setLink, if_neg hc, lookupLink]
      by_cases hc' : c = c'
      · rw [if_pos hc', if_pos hc']
      · rw [if_neg hc', if_neg hc']
        exact ih

theorem lookupLink_delLink_ne (links : Registry) (code c' : String)
    (h : c' ≠ code) :
    lookupLink (delLink links code) c' = lookupLink links c' := by
  induction links with
  | nil => rfl
  | cons p rest ih =>
    obtain ⟨c, r0⟩ := p
    rw [delLink]
    by_cases hc : c = code
    · rw [if_pos hc, lookupLink, if_neg (hc ▸ fun hh => h hh.symm)]
    · rw [if_neg hc, lookupLink, lookupLink]
      by_cases hc' : c = c'
      · rw [if_pos hc', if_pos hc']
      · rw [if_neg hc', if_neg hc']
        exact ih

theorem lookupLink_append_of_some (links l2 : Registry) (c : String)
    (r : LinkRecord) (h : lookupLink links c = some r) :
    lookupLink (links ++ l2) c = some r := by
  induction links with
  | nil => cases h
  | cons p rest ih =>
    obtain ⟨c0, r0⟩ := p
    rw [lookupLink] at h
    rw [List.cons_append, lookupLink]
    by_cases hc : c0 = c
    · rw [if_pos hc] at h
      rw [if_pos hc]
      exact h
    · rw [if_neg hc] at h
      rw [if_neg hc]
      exact ih h

theorem lookupLink_eq_none_of_not_mem (links : Registry) (c : String)
    (h : c ∉ links.map Prod.fst) : lookupLink links c = none := by
  induction links with
  | nil => rfl
  | cons p rest ih =>
    obtain ⟨c0, r0⟩ := p
    rw [List.map_cons, List.mem_cons] at h
    push_neg at h
    rw [lookupLink, if_neg fun hh => h.1 hh.symm]
    exact ih h.2

theorem mem_of_lookupLink (links : Registry) (c : String) (r : LinkRecord)
    (h : lookupLink links c = some r) : (c, r) ∈ links := by
  induction links with
  | nil => cases h
  | cons p rest ih =>
    obtain ⟨c0, r0⟩ := p
    rw [lookupLink] at h
    by_cases hc : c0 = c
    · rw [if_pos hc] at h
      obtain rfl := Option.some.inj h
      exact hc ▸ List.mem_cons_self _ _
    · rw [if_neg hc] at h
      exact List.mem_cons_of_mem _ (ih h)

theorem hasCode_iff_mem_keys (links : Registry) (c : String) :
    hasCode links c = true ↔ c ∈ links.map Prod.fst := by
  induction links with
  | nil => simp [hasCode, lookupLink]
  | cons p rest ih =>
    obtain ⟨c0, r0⟩ := p
    rw [hasCode, lookupLink, List.map_cons, List.mem_cons]
    by_cases hc : c0 = c
    · simp [hc]
    · rw [if_neg hc]
      rw [hasCode] at ih
      rw [ih]
      constructor
      · exact Or.inr
      · rintro (rfl | hm)
        · exact absurd rfl hc
        · exact hm

theorem setLink_of_not_has (links : Registry) (code : String) (r : LinkRecord)
    (h : hasCode links code = false) :
    setLink links code r = links ++ [(code, r)] := by
  induction links with
  | nil => rfl
  | cons p rest ih =>
    obtain ⟨c0, r0⟩ := p
    rw [hasCode, lookupLink] at h
    by_cases hc : c0 = code
    · rw [if_pos hc] at h
      cases h
    · rw [if_neg hc] at h
      rw [setLink, if_neg hc, List.cons_append, ih h]

theorem setLink_keys_of_has (links : Registry) (code : String) (r : LinkRecord)
    (h : hasCode links code = true) :
    (setLink links code r).map Prod.fst = links.map Prod.fst := by
  induction links with
  | nil => cases h
  | cons p rest ih =>
    obtain ⟨c0, r0⟩ := p
    rw [hasCode, lookupLink] at h
    rw [setLink]
    by_cases hc : c0 = code
    · rw [if_pos hc, List.map_cons, List.map_cons]
    · rw [if_neg hc] at h
      rw [if_neg hc, List.map_cons, List.map_cons, ih h]

theorem mem_keys_delLink (links : Registry) (code a : String)
    (h : a ∈ (delLink links code).map Prod.fst) :
    a ∈ links.map Prod.fst := by
  induction links with
  | nil => exact h
  | cons p rest ih =>
    obtain ⟨c0, r0⟩ := p
    rw [delLink] at h
    by_cases hc : c0 = code
    · rw [if_pos hc] at h
      exact List.mem_cons_of_mem _ h
    · rw [if_neg hc, List.map_cons, List.mem_cons] at h
      rcases h with rfl | h
      · exact List.mem_cons_self _ _
      · exact List.mem_cons_of_mem _ (ih h)

theorem keysNodup_delLink (links : Registry) (code : String)
    (h : keysNodup links) : keysNodup (delLink links code) := by
  induction links with
  | nil => exact h
  | cons p rest ih =>
    obtain ⟨c0, r0⟩ := p
    rw [keysNodup, List.map_cons, List.nodup_cons] at h
    rw [delLink]
    by_cases hc : c0 = code
    · rw [if_pos hc]
      exact h.2
    · rw [if_neg hc]
      rw [keysNodup, List.map_cons, List.nodup_cons]
      exact ⟨fun hm => h.1 (mem_keys_delLink rest code c0 hm), ih h.2⟩

theorem lookupLink_delLink_self (links : Registry) (code : String)
    (h : keysNodup links) : lookupLink (delLink links code) code = none := by
  induction links with
  | nil => rfl
  | cons p rest ih =>
    obtain ⟨c0, r0⟩ := p
    rw [keysNodup, List.map_cons, List.nodup_cons] at h
    rw [delLink]
    by_cases hc : c0 = code
    · rw [if_pos hc]
      exact lookupLink_eq_none_of_not_mem rest code (hc ▸ h.1)
    · rw [if_neg hc, lookupLink, if_neg hc]
      exact ih h.2

theorem mem_setLink (links : Registry) (code : String) (r : LinkRecord)
    (p : String × LinkRecord) (h : p ∈ setLink links code r) :
    p ∈ links ∨ p = (code, r) := by
  induction links with
  | nil =>
    rw [setLink, List.mem_singleton] at h
    exact Or.inr h
  | cons q rest ih =>
    obtain ⟨c0, r0⟩ := q
    rw [setLink] at h
    by_cases hc : c0 = code
    · rw [if_pos hc, List.mem_cons] at h
      rcases h with rfl | h
      · exact Or.inr (by rw [hc])
      · exact Or.inl (List.mem_cons_of_mem _ h)
    · rw [if_neg hc, List.mem_cons] at h
      rcases h with rfl | h
      · exact Or.inl (List.mem_cons_self _ _)
      · rcases ih h with h | h
        · exact Or.inl (List.mem_cons_of_mem _ h)
        · exact Or.inr h

theorem keysNodup_append_single (links : Registry) (code : String)
    (r : LinkRecord) (h : keysNodup links) (hc : hasCode links code = false) :
    keysNodup (links ++ [(code, r)]) := by
  rw [keysNodup, List.map_append]
  rw [List.nodup_append]
  refine ⟨h, List.nodup_singleton _, ?_⟩
  intro a ha hb
  rw [List.map_cons, List.map_nil, List.mem_singleton] at hb
  subst hb
  have := (hasCode_iff_mem_keys links a).mpr ha
  rw [hc] at this
  cases this

/-- **C2.** With the record for `code` in hand, `redirect` fails with
`Expired` exactly when `expires_at` holds a string that parses to a
time strictly earlier than the current UTC time (`fromisoformat`'s
rejection of the empty string is the hypothesis `h0`; an empty
`expires_at` is falsy and skips the check entirely), and in that case
the whole state — in-memory registry, persisted document and click
ledger — is unchanged: no click is counted, persisted or logged. -/
theorem c2_expired_iff (st : SysState) (code : String)
    (parse : String → Option Int) (now : Int) (day time : String)
    (ip : Option String) (ua referer : String) (r : LinkRecord)
    (hr : lookupLink st.links code = some r) (h0 : parse "" = none) :
    ((redirect st code parse now day time ip ua referer).2 = .expired ↔
      ∃ s t, r.expires_at = some s ∧ parse s = some t ∧ t < now)
    ∧ ((redirect st code parse now day time ip ua referer).2 = .expired →
      (redirect st code parse now day time ip ua referer).1 = st) := by
  cases hexp : r.expires_at with
  | none => simp [redirect, hr, hexp, truthyOpt]
  | some s =>
    by_cases hs : s = ""
    · subst hs
      simp [redirect, hr, hexp, truthyOpt, h0]
    · cases hp : parse s with
      | none => simp [redirect, hr, hexp, truthyOpt, hs, hp]
      | some t =>
        by_cases ht : t < now
        · simp [redirect, hr, hexp, truthyOpt, hs, hp, ht]
        · simp [redirect, hr, hexp, truthyOpt, hs, hp, ht]

/-- **C2 (witness).** A link whose `expires_at` parses to a time
before now: the redirect fails with `Expired`. -/
theorem c2_expired_iff_witness :
    (redirect
        ⟨[("x", ⟨"https://example.com/", "t0", some "2000-01-01T00:00:00", 5⟩)],
          save_links
            [("x", ⟨"https://example.com/", "t0", some "2000-01-01T00:00:00", 5⟩)],
          []⟩
        "x" (fun s => if s = "2000-01-01T00:00:00" then some 0 else none)
        1 "d" "tm" none "u" "rf").2
      = .expired :=
  (c2_expired_iff
      ⟨[("x", ⟨"https://example.com/", "t0", some "2000-01-01T00:00:00", 5⟩)],
        save_links
          [("x", ⟨"https://example.com/", "t0", some "2000-01-01T00:00:00", 5⟩)],
        []⟩
      "x" (fun s => if s = "2000-01-01T00:00:00" then some 0 else none)
      1 "d" "tm" none "u" "rf"
      ⟨"https://example.com/", "t0", some "2000-01-01T00:00:00", 5⟩
      (by decide) (by decide)).1.mpr
    ⟨"2000-01-01T00:00:00", 0, rfl, by decide, by omega⟩

/-- **C3.** `create_link` accepts and stores an `expires_at` string
that is not a valid ISO-8601 datetime without any validation, and every
subsequent `redirect` of that code hits the unhandled `ValueError` of
`datetime.fromisoformat` in the expiry check (outcome
`isoParseError`) instead of `Expired` or a redirect, whatever the
current time is. -/
theorem c3_unvalidated_expiry (parse : String → Option Int) (nowT : Int)
    (day time : String) (ip : Option String) (ua referer : String)
    (hbad : parse "not-a-date" = none) :
    (create_link emptyState expDemoReq "2024-01-01T00:00:00" 0 fun _ => 0).2
        = some (.created "promo")
    ∧ lookupLink expDemoState.links "promo"
        = some ⟨"https://example.com/a", "2024-01-01T00:00:00",
            some "not-a-date", 0⟩
    ∧ (redirect expDemoState "promo" parse nowT day time ip ua referer).2
        = .isoParseError := by
  refine ⟨by decide, by decide, ?_⟩
  have hl : lookupLink expDemoState.links "promo"
      = some ⟨"https://example.com/a", "2024-01-01T00:00:00",
          some "not-a-date", 0⟩ := by decide
  simp [redirect, hl, truthyOpt, hbad]

/-- **C3 (witness).** Instantiated with a parse function rejecting the
stored string. -/
theorem c3_unvalidated_expiry_witness :
    (create_link emptyState expDemoReq "2024-01-01T00:00:00" 0 fun _ => 0).2
        = some (.created "promo")
    ∧ lookupLink expDemoState.links "promo"
        = some ⟨"https://example.com/a", "2024-01-01T00:00:00",
            some "not-a-date", 0⟩
    ∧ (redirect expDemoState "promo" (fun _ => none) 0 "d" "tm" none "u" "rf").2
        = .isoParseError :=
  c3_unvalidated_expiry (fun _ => none) 0 "d" "tm" none "u" "rf" rfl

theorem candidate_length (rand : Nat → Nat) (len i : Nat) :
    (candidate rand len i).length = len := by
  simp [candidate, String.length]

theorem candidate_chars (rand : Nat → Nat) (len i : Nat) :
    ∀ ch ∈ (candidate rand len i).toList, ch ∈ alphabet := by
  intro ch hch
  rw [candidate] at hch
  simp only [String.toList] at hch
  obtain ⟨j, _, rfl⟩ := List.mem_map.mp hch
  rw [drawChar]
  have h62 : alphabet.length = 62 := by decide
  have hlt : rand (i * len + j) % 62 < alphabet.length := by
    rw [h62]
    exact Nat.mod_lt _ (by decide)
  rw [List.getD_eq_getElem _ _ hlt]
  exact List.getElem_mem _

theorem genLoop_eq_some (links : Registry) (rand : Nat → Nat) (len : Nat) :
    ∀ fuel i c, genLoop links rand len fuel i = some c →
      hasCode links c = false ∧ c.length = len
        ∧ ∀ ch ∈ c.toList, ch ∈ alphabet := by
  intro fuel
  induction fuel with
  | zero =>
    intro i c h
    cases h
  | succ fuel ih =>
    intro i c h
    rw [genLoop] at h
    split at h
    · exact ih (i + 1) c h
    · rename_i hfree
      obtain rfl := Option.some.inj h
      rw [Bool.not_eq_true] at hfree
      exact ⟨hfree, candidate_length rand len i, candidate_chars rand len i⟩

theorem genLoop_hits (links : Registry) (rand : Nat → Nat) (len : Nat) :
    ∀ fuel i,
      (∃ j, j < fuel ∧ hasCode links (candidate rand len (i + j)) = false) →
      ∃ c, genLoop links rand len fuel i = some c := by
  intro fuel
  induction fuel with
  | zero =>
    rintro i ⟨j, hj, _⟩
    exact absurd hj (Nat.not_lt_zero j)
  | succ fuel ih =>
    rintro i ⟨j, hj, hfree⟩
    rw [genLoop]
    by_cases hc : hasCode links (candidate rand len i) = true
    · rw [if_pos hc]
      cases j with
      | zero =>
        rw [Nat.add_zero] at hfree
        rw [hfree] at hc
        cases hc
      | succ j =>
        refine ih (i + 1) ⟨j, by omega, ?_⟩
        have hi : i + 1 + j = i + (j + 1) := by omega
        rw [hi]
        exact hfree
    · rw [if_neg hc]
      exact ⟨_, rfl⟩

/-- **C4 (counterexample).** An empty custom code is supplied and is
not alphanumeric (`"".isalnum()` is false in Python), yet `insert` does
not fail with `InvalidCode`: Python truthiness routes it to the
generation path and it succeeds with a generated code. -/
theorem c4_counterexample :
    pyIsAlnum "" = false
    ∧ (create_link emptyState ⟨"https", "https://example.com/b", some "", none⟩
        "2024-01-01T00:00:00" 1 fun _ => 0).2 = some (.created "aaaaaa") := by
  constructor
  · rfl
  · decide

/-- **C4 (amended).** `insert` validates in the source's order:
`InvalidURL` whenever the scheme is neither `http` nor `https` (this
takes precedence over everything); otherwise, when the supplied custom
code is non-empty, `CodeConflict` if it is already a key (checked
before the alphanumeric check), else `InvalidCode` if it is not
alphanumeric, else success storing the record under that code; an
absent or empty custom code takes the generation path, which never
yields `InvalidCode` and on success stores a fresh 6-character code.
The whole state is unchanged in every failure case. -/
theorem c4_amended_insert_cases (st : SysState) (req : CreateReq)
    (now : String) (fuel : Nat) (rand : Nat → Nat) :
    (¬(req.scheme = "http" ∨ req.scheme = "https") →
      create_link st req now fuel rand = (st, some .invalidURL))
    ∧ ((req.scheme = "http" ∨ req.scheme = "https") →
      ∀ c, truthyOpt req.code = some c →
        (hasCode st.links c = true →
          create_link st req now fuel rand = (st, some .conflict))
        ∧ (hasCode st.links c = false → pyIsAlnum c = false →
          create_link st req now fuel rand = (st, some .invalidCode))
        ∧ (hasCode st.links c = false → pyIsAlnum c = true →
          create_link st req now fuel rand
            = (⟨setLink st.links c ⟨req.url, now, req.expires_at, 0⟩,
                save_links (setLink st.links c ⟨req.url, now, req.expires_at, 0⟩),
                st.log⟩, some (.created c))))
    ∧ ((req.scheme = "http" ∨ req.scheme = "https") →
      truthyOpt req.code = none →
        ((create_link st req now fuel rand).2 = none →
          create_link st req now fuel rand = (st, none))
        ∧ ∀ c, (create_link st req now fuel rand).2 = some (.created c) →
          hasCode st.links c = false ∧ c.length = 6) := by
  refine ⟨?_, ?_, ?_⟩
  · intro h
    rw [create_link, if_pos h]
  · intro hsch c hc
    have hneg : ¬¬(req.scheme = "http" ∨ req.scheme = "https") :=
      not_not_intro hsch
    refine ⟨?_, ?_, ?_⟩
    · intro hhas
      simp only [create_link, if_neg hneg, hc]
      rw [if_pos hhas]
    · intro hhas haln
      simp only [create_link, if_neg hneg, hc]
      rw [if_neg (by simp [hhas]), if_pos (by simp [haln])]
    · intro hhas haln
      simp only [create_link, if_neg hneg, hc]
      rw [if_neg (by simp [hhas]), if_neg (by simp [haln])]
  · intro hsch hnonec
    have hneg : ¬¬(req.scheme = "http" ∨ req.scheme = "https") :=
      not_not_intro hsch
    constructor
    · intro h2
      cases hg : generate_code fuel st.links rand 6 with
      | none => simp only [create_link, if_neg hneg, hnonec, hg]
      | some c =>
        simp only [create_link, if_neg hneg, hnonec, hg] at h2
        cases h2
    · intro c h2
      cases hg : generate_code fuel st.links rand 6 with
      | none =>
        simp only [create_link, if_neg hneg, hnonec, hg] at h2
        cases h2
      | some c0 =>
        simp only [create_link, if_neg hneg, hnonec, hg,
          Option.some.injEq, CreateOutcome.created.injEq] at h2
        subst h2
        obtain ⟨hfree, hlen, _⟩ :=
          genLoop_eq_some st.links rand 6 fuel 0 c0 hg
        exact ⟨hfree, hlen⟩

/-- **C4 (amended, witness).** A conflicting custom code together with
an invalid scheme: `InvalidURL` wins and the state is unchanged. -/
theorem c4_amended_insert_cases_witness :
    create_link
        ⟨[("promo1", ⟨"https://example.com/sale", "t0", none, 0⟩)],
          save_links [("promo1", ⟨"https://example.com/sale", "t0", none, 0⟩)],
          []⟩
        ⟨"ftp", "ftp://example.com/", some "promo1", none⟩ "t1" 0 (fun _ => 0)
      = (⟨[("promo1", ⟨"https://example.com/sale", "t0", none, 0⟩)],
          save_links [("promo1", ⟨"https://example.com/sale", "t0", none, 0⟩)],
          []⟩, some .invalidURL) :=
  (c4_amended_insert_cases _ _ "t1" 0 (fun _ => 0)).1 (by decide)

/-- **C5 (counterexample).** A click event for `"x"` exists in the
ledger but `"x"` has no record in the registry: the stats operation
`get_link_stats` fails with `NotFound`, even though the aggregation
helper `get_click_stats` counts the orphaned event. -/
theorem c5_counterexample :
    get_link_stats
        ⟨[], save_links [],
          [("2024-01-01", [LogLine.evt ⟨"x", "t1", none, "u", ""⟩])]⟩ "x"
      = .notFound
    ∧ get_click_stats [("2024-01-01", [LogLine.evt ⟨"x", "t1", none, "u", ""⟩])] "x"
      = .ok ⟨1, [⟨"x", "t1", none, "u", ""⟩]⟩ := by
  exact ⟨rfl, by decide⟩

/-- **C5 (amended).** The aggregation helper `get_click_stats` never
consults the registry and counts orphaned history, but the exposed
stats operation `get_link_stats` first requires the record: it fails
with `NotFound` for every code absent from the registry, so orphaned
events are only countable through the helper, not through the stats
endpoint. -/
theorem c5_amended_stats (st : SysState) (code : String) :
    (lookupLink st.links code = none → get_link_stats st code = .notFound)
    ∧ (logWF st.log = true → ∀ r, lookupLink st.links code = some r →
      get_link_stats st code
        = .ok r.url r.created_at (allMatches st.log code).length
            ((scanMatches st.log code).take 10)) := by
  constructor
  · intro h
    simp only [get_link_stats, h]
  · intro hwf r hr
    simp only [get_link_stats, hr, get_click_stats_wf st.log code hwf]

/-- **C5 (amended, witness).** -/
theorem c5_amended_stats_witness :
    get_link_stats emptyState "y" = .notFound :=
  (c5_amended_stats emptyState "y").1 rfl

/-- **C9.** If some iteration of the (unbounded, here fuel-bounded)
retry loop draws a candidate that is not yet a key — guaranteed with
probability 1 by `secrets.choice` whenever the 62^len keyspace is not
exhausted — then `generate_code` returns a code of exactly the
requested length, built only from the 62-character alphanumeric
alphabet, and not present in the registry. -/
theorem c9_generate_spec (fuel : Nat) (links : Registry) (rand : Nat → Nat)
    (len : Nat)
    (h : ∃ i, i < fuel ∧ hasCode links (candidate rand len i) = false) :
    ∃ c, generate_code fuel links rand len = some c ∧ c.length = len
      ∧ (∀ ch ∈ c.toList, ch ∈ alphabet) ∧ hasCode links c = false := by
  obtain ⟨c, hc⟩ := genLoop_hits links rand len fuel 0 (by simpa using h)
  obtain ⟨hfree, hlen, hchars⟩ := genLoop_eq_some links rand len fuel 0 c hc
  exact ⟨c, hc, hlen, hchars, hfree⟩

/-- **C9 (witness).** -/
theorem c9_generate_spec_witness :
    ∃ c, generate_code 1 [] (fun _ => 0) 6 = some c ∧ c.length = 6
      ∧ (∀ ch ∈ c.toList, ch ∈ alphabet) ∧ hasCode [] c = false :=
  c9_generate_spec 1 [] (fun _ => 0) 6 ⟨0, by omega, rfl⟩

/-- **C10.** An empty custom code is falsy in Python, so `insert`
behaves exactly as if no code were supplied: the conflict and
alphanumeric checks are bypassed, the outcome is never `InvalidCode`,
and on success the assigned code is a freshly generated 6-character
code that was not previously a key. -/
theorem c10_empty_code_generates (st : SysState) (scheme url : String)
    (expires_at : Option String) (now : String) (fuel : Nat)
    (rand : Nat → Nat) :
    create_link st ⟨scheme, url, some "", expires_at⟩ now fuel rand
        = create_link st ⟨scheme, url, none, expires_at⟩ now fuel rand
    ∧ (∀ o, (create_link st ⟨scheme, url, some "", expires_at⟩ now fuel rand).2
        = some o → o ≠ .invalidCode)
    ∧ ∀ c, (create_link st ⟨scheme, url, some "", expires_at⟩ now fuel rand).2
        = some (.created c) → c.length = 6 ∧ hasCode st.links c = false := by
  have htr : truthyOpt (some "") = (none : Option String) := rfl
  refine ⟨?_, ?_, ?_⟩
  · simp [create_link, truthyOpt]
  · intro o ho
    by_cases hs : scheme = "http" ∨ scheme = "https"
    · cases hg : generate_code fuel st.links rand 6 with
      | none =>
        simp only [create_link, if_neg (not_not_intro hs), htr, hg] at ho
        cases ho
      | some c =>
        simp only [create_link, if_neg (not_not_intro hs), htr, hg,
          Option.some.injEq] at ho
        subst ho
        intro hcon
        cases hcon
    · simp only [create_link, if_pos hs, Option.some.injEq] at ho
      subst ho
      intro hcon
      cases hcon
  · intro c hc
    by_cases hs : scheme = "http" ∨ scheme = "https"
    · cases hg : generate_code fuel st.links rand 6 with
      | none =>
        simp only [create_link, if_neg (not_not_intro hs), htr, hg] at hc
        cases hc
      | some c0 =>
        simp only [create_link, if_neg (not_not_intro hs), htr, hg,
          Option.some.injEq, CreateOutcome.created.injEq] at hc
        subst hc
        obtain ⟨hfree, hlen, _⟩ :=
          genLoop_eq_some st.links rand 6 fuel 0 c0 hg
        exact ⟨hlen, hfree⟩
    · simp only [create_link, if_pos hs, Option.some.injEq] at hc
      cases hc

/-- **C10 (witness).** On the empty registry with scheme `https`, the
empty-code request behaves like the absent-code request, and the code
it creates has length 6 and was fresh. -/
theorem c10_empty_code_generates_witness :
    create_link emptyState ⟨"https", "https://example.com/", some "", none⟩
        "t0" 1 (fun _ => 0)
      = create_link emptyState ⟨"https", "https://example.com/", none, none⟩
        "t0" 1 (fun _ => 0)
    ∧ ("aaaaaa".length = 6 ∧ hasCode emptyState.links "aaaaaa" = false) :=
  ⟨(c10_empty_code_generates emptyState "https" "https://example.com/"
      none "t0" 1 fun _ => 0).1,
    (c10_empty_code_generates emptyState "https" "https://example.com/"
      none "t0" 1 fun _ => 0).2.2 "aaaaaa" (by decide)⟩

theorem lookupLink_append_self (links : Registry) (code : String)
    (r : LinkRecord) (h : hasCode links code = false) :
    lookupLink (links ++ [(code, r)]) code = some r := by
  induction links with
  | nil => simp [lookupLink]
  | cons p rest ih =>
    obtain ⟨c0, r0⟩ := p
    rw [hasCode, lookupLink] at h
    by_cases hc : c0 = code
    · rw [if_pos hc] at h
      cases h
    · rw [if_neg hc] at h
      rw [List.cons_append, lookupLink, if_neg hc]
      exact ih h

theorem mem_delLink (links : Registry) (code : String)
    (p : String × LinkRecord) (h : p ∈ delLink links code) : p ∈ links := by
  induction links with
  | nil => exact h
  | cons q rest ih =>
    obtain ⟨c0, r0⟩ := q
    rw [delLink] at h
    by_cases hc : c0 = code
    · rw [if_pos hc] at h
      exact List.mem_cons_of_mem _ h
    · rw [if_neg hc, List.mem_cons] at h
      rcases h with rfl | h
      · exact List.mem_cons_self _ _
      · exact List.mem_cons_of_mem _ (ih h)

theorem create_link_cases (st : SysState) (req : CreateReq) (now : String)
    (fuel : Nat) (rand : Nat → Nat) :
    ((create_link st req now fuel rand).1 = st
      ∧ ∀ c, (create_link st req now fuel rand).2 ≠ some (.created c))
    ∨ ∃ c, hasCode st.links c = false
        ∧ (create_link st req now fuel rand).2 = some (.created c)
        ∧ (create_link st req now fuel rand).1.links
            = st.links ++ [(c, ⟨req.url, now, req.expires_at, 0⟩)] := by
  by_cases hs : req.scheme = "http" ∨ req.scheme = "https"
  · have hneg : ¬¬(req.scheme = "http" ∨ req.scheme = "https") :=
      not_not_intro hs
    cases hc : truthyOpt req.code with
    | some c =>
      by_cases hhas : hasCode st.links c = true
      · left
        constructor
        · simp only [create_link, if_neg hneg, hc, if_pos hhas]
        · intro c0 h
          simp only [create_link, if_neg hneg, hc, if_pos hhas] at h
          simp at h
      · have hhasf : hasCode st.links c = false := by
          rw [Bool.not_eq_true] at hhas
          exact hhas
        by_cases haln : pyIsAlnum c = true
        · right
          refine ⟨c, hhasf, ?_, ?_⟩
          · simp only [create_link, if_neg hneg, hc]
            rw [if_neg (by simp [hhasf]), if_neg (by simp [haln])]
          · simp only [create_link, if_neg hneg, hc]
            rw [if_neg (by simp [hhasf]), if_neg (by simp [haln])]
            exact setLink_of_not_has st.links c _ hhasf
        · left
          constructor
          · simp only [create_link, if_neg hneg, hc]
            rw [if_neg (by simp [hhasf]), if_pos (by simp [haln])]
          · intro c0 h
            simp only [create_link, if_neg hneg, hc] at h
            rw [if_neg (by simp [hhasf]), if_pos (by simp [haln])] at h
            simp at h
    | none =>
      cases hg : generate_code fuel st.links rand 6 with
      | none =>
        left
        constructor
        · simp only [create_link, if_neg hneg, hc, hg]
        · intro c0 h
          simp only [create_link, if_neg hneg, hc, hg] at h
          cases h
      | some c =>
        right
        obtain ⟨hfree, _, _⟩ := genLoop_eq_some st.links rand 6 fuel 0 c hg
        refine ⟨c, hfree, ?_, ?_⟩
        · simp only [create_link, if_neg hneg, hc, hg]
        · simp only [create_link, if_neg hneg, hc, hg]
          exact setLink_of_not_has st.links c _ hfree
  · left
    constructor
    · simp only [create_link, if_pos hs]
    · intro c0 h
      simp only [create_link, if_pos hs] at h
      simp at h

theorem redirect_cases (st : SysState) (code : String)
    (parse : String → Option Int) (now : Int) (day time : String)
    (ip : Option String) (ua referer : String) :
    ((redirect st code parse now day time ip ua referer).1 = st
      ∧ ∀ u, (redirect st code parse now day time ip ua referer).2
          ≠ .redirected u)
    ∨ ∃ data, lookupLink st.links code = some data
        ∧ (redirect st code parse now day time ip ua referer).2
            = .redirected data.url
        ∧ (redirect st code parse now day time ip ua referer).1.links
            = setLink st.links code { data with clicks := data.clicks + 1 } := by
  cases hl : lookupLink st.links code with
  | none =>
    left
    constructor
    · simp only [redirect, hl]
    · intro u h
      simp only [redirect, hl] at h
      cases h
  | some data =>
    cases hexp : truthyOpt data.expires_at with
    | none =>
      right
      exact ⟨data, rfl, by simp only [redirect, hl, hexp],
        by simp only [redirect, hl, hexp]⟩
    | some s =>
      cases hp : parse s with
      | none =>
        left
        constructor
        · simp only [redirect, hl, hexp, hp]
        · intro u h
          simp only [redirect, hl, hexp, hp] at h
          cases h
      | some t =>
        by_cases ht : t < now
        · left
          constructor
          · simp only [redirect, hl, hexp, hp, if_pos ht]
          · intro u h
            simp only [redirect, hl, hexp, hp, if_pos ht] at h
            cases h
        · right
          exact ⟨data, rfl, by simp only [redirect, hl, hexp, hp, if_neg ht],
            by simp only [redirect, hl, hexp, hp, if_neg ht]⟩

/-- **C7.** Per-operation click-counter invariants on any reachable
state (distinct keys, non-negative counters): every mutating operation
preserves non-negativity and key distinctness; a record present before
and after either keeps exactly the same record (so `clicks` never
decreases) or, precisely when the operation is a successful
(non-expired) redirect of that code, has `clicks` incremented by
exactly 1; and a successful insert stores the new record with
`clicks = 0`.  The read-only operations (`get_link`, `list_links`,
`get_link_stats`, `get_click_stats`) return no state at all, so they
change no counter by construction. -/
theorem c7_clicks_monotone (st : SysState) (op : Op)
    (hnd : keysNodup st.links) (hnn : clicksNonneg st.links) :
    clicksNonneg (applyOp st op).links
    ∧ keysNodup (applyOp st op).links
    ∧ (∀ c r r', lookupLink st.links c = some r →
        lookupLink (applyOp st op).links c = some r' →
        if redirectedCode st op = some c then r'.clicks = r.clicks + 1
        else r' = r)
    ∧ (∀ req now fuel rand c, op = .createOp req now fuel rand →
        (create_link st req now fuel rand).2 = some (.created c) →
        lookupLink (applyOp st op).links c
          = some ⟨req.url, now, req.expires_at, 0⟩) := by
  cases op with
  | createOp req now fuel rand =>
    have hrc : redirectedCode st (.createOp req now fuel rand) = none := rfl
    rcases create_link_cases st req now fuel rand with
      ⟨heq, hno⟩ | ⟨c, hfree, hout, hlinks⟩
    · rw [applyOp, heq]
      refine ⟨hnn, hnd, ?_, ?_⟩
      · intro c r r' hr hr'
        rw [hrc, if_neg (by simp)]
        rw [hr] at hr'
        exact (Option.some.inj hr').symm
      · intro req' now' fuel' rand' c heq' hout
        cases heq'
        exact absurd hout (hno c)
    · refine ⟨?_, ?_, ?_, ?_⟩
      · intro p hp
        rw [applyOp, hlinks] at hp
        rcases List.mem_append.mp hp with hp | hp
        · exact hnn p hp
        · rw [List.mem_singleton] at hp
          subst hp
          exact le_refl 0
      · rw [applyOp]
        rw [keysNodup] at hnd ⊢
        rw [hlinks]
        have := keysNodup_append_single st.links c
          ⟨req.url, now, req.expires_at, 0⟩ hnd hfree
        rw [keysNodup] at this
        exact this
      · intro c' r r' hr hr'
        rw [hrc, if_neg (by simp)]
        rw [applyOp, hlinks,
          lookupLink_append_of_some st.links _ c' r hr] at hr'
        exact (Option.some.inj hr').symm
      · intro req' now' fuel' rand' c0 heq' hout0
        cases heq'
        rw [hout0] at hout
        obtain rfl : c = c0 := by
          have h2 := Option.some.inj hout
          cases h2
          rfl
        rw [applyOp, hlinks]
        exact lookupLink_append_self st.links c _ hfree
  | deleteOp code =>
    have hrc : redirectedCode st (.deleteOp code) = none := rfl
    cases hl : lookupLink st.links code with
    | none =>
      have happ : applyOp st (.deleteOp code) = st := by
        simp only [applyOp, delete_link, hl]
      rw [happ]
      refine ⟨hnn, hnd, ?_, ?_⟩
      · intro c r r' hr hr'
        rw [hrc, if_neg (by simp)]
        rw [hr] at hr'
        exact (Option.some.inj hr').symm
      · intro req' now' fuel' rand' c heq' hout
        cases heq'
    | some data =>
      have happ : (applyOp st (.deleteOp code)).links = delLink st.links code := by
        simp only [applyOp, delete_link, hl]
      refine ⟨?_, ?_, ?_, ?_⟩
      · intro p hp
        rw [happ] at hp
        exact hnn p (mem_delLink st.links code p hp)
      · rw [happ]
        exact keysNodup_delLink st.links code hnd
      · intro c' r r' hr hr'
        rw [hrc, if_neg (by simp)]
        rw [happ] at hr'
        by_cases hcc : c' = code
        · subst hcc
          rw [lookupLink_delLink_self st.links c' hnd] at hr'
          cases hr'
        · rw [lookupLink_delLink_ne st.links code c' hcc] at hr'
          rw [hr] at hr'
          exact (Option.some.inj hr').symm
      · intro req' now' fuel' rand' c heq' hout
        cases heq'
  | redirectOp code parse nowT day time ip ua referer =>
    rcases redirect_cases st code parse nowT day time ip ua referer with
      ⟨heq, hnored⟩ | ⟨data, hl, hout, hlinks⟩
    · have hrc : redirectedCode st
          (.redirectOp code parse nowT day time ip ua referer) = none := by
        rw [redirectedCode]
        cases ho : (redirect st code parse nowT day time ip ua referer).2 with
        | notFound => rfl
        | expired => rfl
        | isoParseError => rfl
        | redirected u => exact absurd ho (hnored u)
      rw [applyOp, heq]
      refine ⟨hnn, hnd, ?_, ?_⟩
      · intro c r r' hr hr'
        rw [hrc, if_neg (by simp)]
        rw [hr] at hr'
        exact (Option.some.inj hr').symm
      · intro req' now' fuel' rand' c heq' hout
        cases heq'
    · have hrc : redirectedCode st
          (.redirectOp code parse nowT day time ip ua referer) = some code := by
        rw [redirectedCode, hout]
      have happ : (applyOp st
            (.redirectOp code parse nowT day time ip ua referer)).links
          = setLink st.links code { data with clicks := data.clicks + 1 } := by
        rw [applyOp]
        exact hlinks
      have hmemdata : (code, data) ∈ st.links :=
        mem_of_lookupLink st.links code data hl
      have hdata0 : 0 ≤ data.clicks := hnn (code, data) hmemdata
      have hhast : hasCode st.links code = true := by
        rw [hasCode, hl]
        rfl
      refine ⟨?_, ?_, ?_, ?_⟩
      · intro p hp
        rw [happ] at hp
        rcases mem_setLink st.links code _ p hp with hp | hp
        · exact hnn p hp
        · subst hp
          show 0 ≤ data.clicks + 1
          omega
      · rw [keysNodup] at hnd ⊢
        rw [happ, setLink_keys_of_has st.links code _ hhast]
        exact hnd
      · intro c' r r' hr hr'
        rw [happ] at hr'
        by_cases hcc : c' = code
        · subst hcc
          rw [hrc, if_pos rfl]
          rw [hl] at hr
          have hrd : data = r := Option.some.inj hr
          rw [lookupLink_setLink_self] at hr'
          obtain rfl := Option.some.inj hr'
          rw [← hrd]
        · have hne : ¬ (some code = some c') := by
            intro hh
            exact hcc (Option.some.inj hh).symm
          rw [hrc, if_neg hne]
          rw [lookupLink_setLink_ne st.links code c' _ hcc] at hr'
          rw [hr] at hr'
          exact (Option.some.inj hr').symm
      · intro req' now' fuel' rand' c heq' hout'
        cases heq'

/-- **C7 (witness).** -/
theorem c7_clicks_monotone_witness :
    clicksNonneg (applyOp emptyState (.deleteOp "x")).links
    ∧ keysNodup (applyOp emptyState (.deleteOp "x")).links := by
  have h := c7_clicks_monotone emptyState (.deleteOp "x")
    (by simp [keysNodup, emptyState]) (by simp [clicksNonneg, emptyState])
  exact ⟨h.1, h.2.1⟩

end TinyLink
